import Mathlib

/-!
Shenandoah heap coordinator: `shenandoahHeap.hpp`.

A shallow embedding of `src/hotspot/share/gc/shenandoah/shenandoahHeap.hpp`:
the enumerations `CancelState`, `GCStateBitPos`, `GCState` and
`ShenandoahDegenPoint`, the function `degen_point_to_string`, and the
operations the header declares without a body (`try_cancel_gc`, `cancel_gc`,
`ShenandoahRegionIterator::next`, `evacuate_object`, `set_gc_state_mask`),
which are modelled from their specification.

Conventions.
* A C++ enumeration becomes an inductive type with one constructor per
  enumerator, in the order of the source.  An enumerator without an
  initialiser takes the value of its predecessor plus one, the first one
  zero; this rule is `enumCode`, the position in the list of enumerators.
* An enumerator with an initialiser (`GCStateBitPos`, `GCState`) has its
  value written as in the source (`1 << HAS_FORWARDED_BITPOS`).
* A value of an enumeration type that reaches a `switch` is its underlying
  integer, so `degen_point_to_string` takes an `Int`.
* Racing threads are an interleaving of atomic steps, given by a schedule.
-/

namespace ShenandoahHeap

/-! ## Enumerations -/

/-- Value of an enumerator that has no initialiser: its position in the
declaration, counted from zero. -/
def enumCode {α : Type} [DecidableEq α] (enumerators : List α) (e : α) : Nat :=
  enumerators.indexOf e

/-- The `enum CancelState` of the source. -/
inductive CancelState
  | CANCELLABLE
  | CANCELLED
  | NOT_CANCELLED
  deriving DecidableEq, Repr

/-- Enumerators of `CancelState`, in declaration order. -/
def CancelState.enumerators : List CancelState :=
  [.CANCELLABLE, .CANCELLED, .NOT_CANCELLED]

/-- Numeric value of a `CancelState` enumerator. -/
def CancelState.toNat (c : CancelState) : Nat :=
  enumCode CancelState.enumerators c

/-- The `enum GCStateBitPos` of the source. -/
inductive GCStateBitPos
  | HAS_FORWARDED_BITPOS
  | MARKING_BITPOS
  | EVACUATION_BITPOS
  | UPDATEREFS_BITPOS
  | TRAVERSAL_BITPOS
  deriving DecidableEq, Repr

/-- Numeric value of a bit position, as initialised in the source. -/
def GCStateBitPos.toNat : GCStateBitPos → Nat
  | .HAS_FORWARDED_BITPOS => 0
  | .MARKING_BITPOS       => 1
  | .EVACUATION_BITPOS    => 2
  | .UPDATEREFS_BITPOS    => 3
  | .TRAVERSAL_BITPOS     => 4

/-- The `enum GCState` of the source. -/
inductive GCState
  | STABLE
  | HAS_FORWARDED
  | MARKING
  | EVACUATION
  | UPDATEREFS
  | TRAVERSAL
  deriving DecidableEq, Repr

/-- Numeric value of a `GCState` enumerator, as initialised in the source. -/
def GCState.toNat : GCState → Nat
  | .STABLE        => 0
  | .HAS_FORWARDED => 1 <<< GCStateBitPos.HAS_FORWARDED_BITPOS.toNat
  | .MARKING       => 1 <<< GCStateBitPos.MARKING_BITPOS.toNat
  | .EVACUATION    => 1 <<< GCStateBitPos.EVACUATION_BITPOS.toNat
  | .UPDATEREFS    => 1 <<< GCStateBitPos.UPDATEREFS_BITPOS.toNat
  | .TRAVERSAL     => 1 <<< GCStateBitPos.TRAVERSAL_BITPOS.toNat

/-- All enumerators of `GCState`, in declaration order. -/
def GCState.enumerators : List GCState :=
  [.STABLE, .HAS_FORWARDED, .MARKING, .EVACUATION, .UPDATEREFS, .TRAVERSAL]

/-- The flags of the GC state: the enumerators defined by a shift of one. -/
def GCState.flags : List GCState :=
  GCState.enumerators.filter (fun g => g != .STABLE)

/-- Bit position enumerator used by the initialiser of a flag (`none` for
`STABLE`, whose initialiser is the literal zero). -/
def GCState.bitPos : GCState → Option GCStateBitPos
  | .STABLE        => none
  | .HAS_FORWARDED => some .HAS_FORWARDED_BITPOS
  | .MARKING       => some .MARKING_BITPOS
  | .EVACUATION    => some .EVACUATION_BITPOS
  | .UPDATEREFS    => some .UPDATEREFS_BITPOS
  | .TRAVERSAL     => some .TRAVERSAL_BITPOS

/-- State value in which exactly the flags of `S` are set: their bitwise OR,
starting from zero. -/
def gcStateOf (S : List GCState) : Nat :=
  S.foldr (fun g acc => g.toNat ||| acc) 0

/-- The `enum ShenandoahDegenPoint` of the source. -/
inductive ShenandoahDegenPoint
  | _degenerated_unset
  | _degenerated_traversal
  | _degenerated_outside_cycle
  | _degenerated_mark
  | _degenerated_evac
  | _degenerated_updaterefs
  | _DEGENERATED_LIMIT
  deriving DecidableEq, Repr

/-- Enumerators of `ShenandoahDegenPoint`, in declaration order. -/
def ShenandoahDegenPoint.enumerators : List ShenandoahDegenPoint :=
  [._degenerated_unset, ._degenerated_traversal, ._degenerated_outside_cycle,
   ._degenerated_mark, ._degenerated_evac, ._degenerated_updaterefs,
   ._DEGENERATED_LIMIT]

/-- Numeric code of a `ShenandoahDegenPoint` enumerator. -/
def ShenandoahDegenPoint.toInt (p : ShenandoahDegenPoint) : Int :=
  (enumCode ShenandoahDegenPoint.enumerators p : Nat)

/-- The points of the enumeration below `_DEGENERATED_LIMIT`. -/
def ShenandoahDegenPoint.points : List ShenandoahDegenPoint :=
  ShenandoahDegenPoint.enumerators.filter
    (fun p => decide (p.toInt < ShenandoahDegenPoint._DEGENERATED_LIMIT.toInt))

/-- The fixed set of degeneration points as the specification of the cycle
coordinator lists it: Outside-Cycle, Mark, Evac, Updaterefs, Traversal. -/
def specDegenerationPoints : List ShenandoahDegenPoint :=
  [._degenerated_outside_cycle, ._degenerated_mark, ._degenerated_evac,
   ._degenerated_updaterefs, ._degenerated_traversal]

deriving instance DecidableEq for Except

/-- Outcome of `degen_point_to_string`: `.ok s` when a `case` returns `s`;
`.error s` when the `default` branch runs `ShouldNotReachHere()`, `s` being
the string of the `return` that follows it. -/
def degen_point_to_string (point : Int) : Except String String :=
  if point = ShenandoahDegenPoint._degenerated_unset.toInt then
    .ok "<UNSET>"
  else if point = ShenandoahDegenPoint._degenerated_traversal.toInt then
    .ok "Traversal"
  else if point = ShenandoahDegenPoint._degenerated_outside_cycle.toInt then
    .ok "Outside of Cycle"
  else if point = ShenandoahDegenPoint._degenerated_mark.toInt then
    .ok "Mark"
  else if point = ShenandoahDegenPoint._degenerated_evac.toInt then
    .ok "Evacuation"
  else if point = ShenandoahDegenPoint._degenerated_updaterefs.toInt then
    .ok "Update Refs"
  else
    .error "ERROR"

/-! ## Cancellation -/

/-- Modelled from the spec: the body of `ShenandoahHeap::try_cancel_gc`, which
the header only declares (`inline bool try_cancel_gc();`, defined in the
inline companion file, absent here).  A cancellation request "is accepted only
when cancellation state is Cancellable; it is a no-op against Not-Cancellable
phases".  The result is the `bool` of the declaration (the request was
accepted) and the new value of `_cancelled_gc`. -/
def try_cancel_gc (_cancelled_gc : CancelState) : Bool × CancelState :=
  if _cancelled_gc = .CANCELLABLE then (true, .CANCELLED) else (false, _cancelled_gc)

/-- Modelled from the spec: the body of `ShenandoahHeap::cancel_gc`, declared
`void cancel_gc(GCCause::Cause cause)` in the header and defined outside it.
The request goes through `try_cancel_gc`; the cause is only reported, so the
effect on the heap is the new value of `_cancelled_gc`. -/
def cancel_gc (_cancelled_gc : CancelState) : CancelState :=
  (try_cancel_gc _cancelled_gc).2

/-! ## Region iterator -/

/-- Width of `size_t` on the 64-bit targets of the collector. -/
def SIZE_T_BITS : Nat := 64

/-- The part of `ShenandoahHeap` the region iterator reads: the region table
`_regions`; `_num_regions` is its length.  The region class itself is only
forward-declared in the header, so it is a parameter. -/
structure RegionTable (Region : Type) where
  _regions : List Region

/-- The `_num_regions` field: number of entries of the region table. -/
def RegionTable.num_regions {Region : Type} (heap : RegionTable Region) : Nat :=
  heap._regions.length

/-- The fields of `ShenandoahRegionIterator`: `volatile size_t _index` (the
`_heap` pointer is the region table passed to each operation). -/
structure ShenandoahRegionIterator where
  _index : Nat
  deriving DecidableEq, Repr

/-- Modelled from the spec: the body of `ShenandoahRegionIterator::reset`,
only declared in the header ("Reset iterator to default state"); the default
state is the one of the constructor, index zero. -/
def ShenandoahRegionIterator.reset (_it : ShenandoahRegionIterator) :
    ShenandoahRegionIterator :=
  { _index := 0 }

/-- Modelled from the spec: the body of `ShenandoahRegionIterator::has_next`,
only declared in the header ("can be used to determine if there is more work
to do"). -/
def ShenandoahRegionIterator.has_next {Region : Type} (heap : RegionTable Region)
    (it : ShenandoahRegionIterator) : Bool :=
  decide (it._index < heap.num_regions)

/-- Modelled from the spec: the body of `ShenandoahRegionIterator::next`, only
declared in the header ("Returns next region, or NULL if there are no more
regions").  `none` is `NULL`; the index is a `size_t`, so the increment is
taken modulo `2 ^ SIZE_T_BITS`. -/
def ShenandoahRegionIterator.next {Region : Type} (heap : RegionTable Region)
    (it : ShenandoahRegionIterator) : Option Region × ShenandoahRegionIterator :=
  if it.has_next heap then
    (heap._regions[it._index]?, { _index := (it._index + 1) % 2 ^ SIZE_T_BITS })
  else
    (none, it)

/-- Results of `k` successive calls of `next`, first call first. -/
def ShenandoahRegionIterator.nextCalls {Region : Type} (heap : RegionTable Region) :
    Nat → ShenandoahRegionIterator → List (Option Region)
  | 0, _ => []
  | k + 1, it => (it.next heap).1 :: nextCalls heap k (it.next heap).2

/-! ## Evacuation and the forwarding protocol -/

/-- Address of an object (`oop`). -/
abbrev oop := Nat

/-- Progress of one thread inside a call `evacuate_object(src, thread)`. -/
inductive EvacThread
  /-- The call has been entered. -/
  | entered
  /-- The object has been copied to the freshly allocated destination `copy`;
  the forwarding target is not installed yet. -/
  | copied (copy : oop)
  /-- The call has returned `result`; `rolled_back` tells whether the thread
  abandoned its own copy. -/
  | returned (result : oop) (rolled_back : Bool)
  /-- No evacuation-buffer space: the thread raised the
  out-of-memory-during-evacuation condition. -/
  | oom
  deriving DecidableEq, Repr

/-- Shared and per-thread state of the threads evacuating one object `src`:
the forwarding record of `src` (equal to `src`, "points to self", until a
destination is installed) and the progress of each thread. -/
structure EvacState where
  fwd : oop
  threads : Nat → EvacThread

/-- State in which no thread has touched `src` yet. -/
def EvacState.init (src : oop) : EvacState :=
  { fwd := src, threads := fun _ => .entered }

/-- Modelled from the spec: the atomic compare-and-exchange on the forwarding
record of `src` (the forwarding-pointer class is not part of the sources
here): install `copy` if the record still points to `src`; the result is the
previous content of the record and the new content. -/
def try_update_forwardee (src copy fwd : oop) : oop × oop :=
  if fwd = src then (src, copy) else (fwd, fwd)

/-- Modelled from the spec: the body of `ShenandoahHeap::evacuate_object`,
declared `inline oop evacuate_object(oop src, Thread* thread)` in the header
and defined in the inline companion file, absent here.  One atomic step of
thread `t`:
* `entered`: copy the object to a destination from the thread's evacuation
  buffer (`alloc t`), or raise out-of-memory-during-evacuation if there is
  none;
* `copied copy`: the compare-and-exchange; on success return the own copy, on
  failure abandon it and return the destination already installed;
* a thread that has returned or raised does nothing more. -/
def evacuate_object_step (src : oop) (alloc : Nat → Option oop)
    (st : EvacState) (t : Nat) : EvacState :=
  match st.threads t with
  | .entered =>
    match alloc t with
    | some copy => { st with threads := Function.update st.threads t (.copied copy) }
    | none => { st with threads := Function.update st.threads t .oom }
  | .copied copy =>
    let r := try_update_forwardee src copy st.fwd
    if r.1 = src then
      { fwd := r.2, threads := Function.update st.threads t (.returned copy false) }
    else
      { fwd := r.2, threads := Function.update st.threads t (.returned r.1 true) }
  | .returned _ _ => st
  | .oom => st

/-- Run the threads under a schedule: the list of thread ids in the order in
which their atomic steps take effect. -/
def evacuate_object_run (src : oop) (alloc : Nat → Option oop) :
    EvacState → List Nat → EvacState
  | st, [] => st
  | st, t :: schedule =>
    evacuate_object_run src alloc (evacuate_object_step src alloc st t) schedule

/-- Number of atomic steps a thread has completed inside `evacuate_object`
(two steps finish the call). -/
def EvacThread.pc : EvacThread → Nat
  | .entered => 0
  | .copied _ => 1
  | .returned _ _ => 2
  | .oom => 2

/-- Invariant of the forwarding protocol for one object `src`. -/
structure EvacInv (src : oop) (alloc : Nat → Option oop) (st : EvacState) : Prop where
  /-- A pending copy is the destination allocated by its thread. -/
  copied_own : ∀ t c, st.threads t = .copied c → alloc t = some c
  /-- A returned address is the installed forwarding target, not `src`. -/
  returned_fwd : ∀ t r b, st.threads t = .returned r b → r = st.fwd ∧ st.fwd ≠ src
  /-- The thread that did not roll back returned its own copy. -/
  winner_own : ∀ t r, st.threads t = .returned r false → alloc t = some r
  /-- An installed forwarding target was installed by a thread that returned
  it as its own copy. -/
  winner_exists : st.fwd ≠ src → ∃ u, st.threads u = .returned st.fwd false
  /-- At most one thread installed its copy. -/
  winner_unique : ∀ t u r r', st.threads t = .returned r false →
    st.threads u = .returned r' false → t = u
  /-- Out-of-memory is raised only by a thread whose allocation failed. -/
  oom_only : ∀ t, st.threads t = .oom → alloc t = none

/-! ## Setting and clearing GC-state bits -/

/-- Width of the GC state: the header passes it around as a `char`
(`char gc_state() const`, `set_gc_state_all_threads(char state)`). -/
def GC_STATE_BITS : Nat := 8

/-- Bitwise complement of a mask within the width of the GC state. -/
def gcStateNot (mask : Nat) : Nat :=
  (2 ^ GC_STATE_BITS - 1) ^^^ (mask % 2 ^ GC_STATE_BITS)

/-- Modelled from the spec: the body of `ShenandoahHeap::set_gc_state_mask`,
declared `void set_gc_state_mask(uint mask, bool value)` in the header and
defined outside it.  The GC state is a bitmask in which a phase sets its bits
when it starts and clears them when it ends: with `value` the bits of `mask`
are set (`state | mask`), without it they are cleared (`state & ~mask`), the
result being kept in the width of the state. -/
def set_gc_state_mask (_gc_state : Nat) (mask : Nat) (value : Bool) : Nat :=
  if value then
    (_gc_state ||| mask) % 2 ^ GC_STATE_BITS
  else
    (_gc_state &&& gcStateNot mask) % 2 ^ GC_STATE_BITS

/-! ## Helper lemmas -/

theorem GCState.toNat_lt_of_mem (g : GCState) : g.toNat < 2 ^ 5 := by
  cases g <;> decide

theorem gcStateOf_cons (g : GCState) (S : List GCState) :
    gcStateOf (g :: S) = g.toNat ||| gcStateOf S := rfl

theorem gcStateOf_lt (S : List GCState) : gcStateOf S < 2 ^ 5 := by
  induction S with
  | nil => decide
  | cons g S ih =>
    rw [gcStateOf_cons]
    exact Nat.or_lt_two_pow (GCState.toNat_lt_of_mem g) ih

theorem GCState.mem_flags_iff (g : GCState) : g ∈ GCState.flags ↔ g ≠ .STABLE := by
  cases g <;> decide

/-- On 5-bit values, testing a flag against `g ||| x` is testing it against
`g` or against `x`; for flags, the former is equality. -/
theorem flag_and_or_small :
    ∀ x : Fin (2 ^ 5), ∀ f ∈ GCState.flags, ∀ g ∈ GCState.flags,
      (f.toNat &&& (g.toNat ||| x.val) ≠ 0 ↔ (f = g ∨ f.toNat &&& x.val ≠ 0)) := by
  decide

theorem flag_and_or (x : Nat) (hx : x < 2 ^ 5) (f g : GCState)
    (hf : f ∈ GCState.flags) (hg : g ∈ GCState.flags) :
    f.toNat &&& (g.toNat ||| x) ≠ 0 ↔ (f = g ∨ f.toNat &&& x ≠ 0) :=
  flag_and_or_small ⟨x, hx⟩ f hf g hg

theorem flag_and_gcStateOf (S : List GCState) (hS : ∀ g ∈ S, g ∈ GCState.flags)
    (f : GCState) (hf : f ∈ GCState.flags) :
    f.toNat &&& gcStateOf S ≠ 0 ↔ f ∈ S := by
  induction S with
  | nil => simp [gcStateOf]
  | cons g S ih =>
    have hg : g ∈ GCState.flags := hS g (List.mem_cons_self g S)
    have hS' : ∀ h ∈ S, h ∈ GCState.flags := fun h hh => hS h (List.mem_cons_of_mem g hh)
    rw [gcStateOf_cons, flag_and_or (gcStateOf S) (gcStateOf_lt S) f g hf hg, ih hS',
      List.mem_cons]

/-! ## The GC-state bitmask -/

/-- C1: the GC state has exactly the five flags HAS_FORWARDED, MARKING,
EVACUATION, UPDATEREFS and TRAVERSAL (every enumerator of `GCState` other than
`STABLE`); their values are 1, 2, 4, 8, 16, each being 1 shifted left by the
flag's own bit position 0..4, so that the only bit set in a flag is the one at
its bit position; and the bitwise AND of two distinct flags is 0. -/
theorem gc_state_flags_single_bit :
    GCState.flags
        = [.HAS_FORWARDED, .MARKING, .EVACUATION, .UPDATEREFS, .TRAVERSAL]
    ∧ (∀ g : GCState, g = .STABLE ∨ g ∈ GCState.flags)
    ∧ GCState.flags.map GCState.toNat = [1, 2, 4, 8, 16]
    ∧ GCState.flags.map (fun f => f.bitPos.map GCStateBitPos.toNat)
        = [some 0, some 1, some 2, some 3, some 4]
    ∧ (∀ f ∈ GCState.flags, ∃ b : GCStateBitPos, f.bitPos = some b
        ∧ f.toNat = 1 <<< b.toNat
        ∧ ∀ i : Nat, f.toNat.testBit i = decide (i = b.toNat))
    ∧ (∀ f ∈ GCState.flags, ∀ g ∈ GCState.flags, f ≠ g → f.toNat &&& g.toNat = 0) := by
  refine ⟨by decide, fun g => by cases g <;> decide, by decide, by decide, ?_, by decide⟩
  intro f hf
  have one_bit : ∀ k i : Nat, (1 <<< k).testBit i = decide (i = k) := by
    intro k i
    rw [Nat.one_shiftLeft, Nat.testBit_two_pow]
    simp [eq_comm]
  cases f
  · exact absurd hf (by decide)
  · exact ⟨.HAS_FORWARDED_BITPOS, rfl, rfl, one_bit _⟩
  · exact ⟨.MARKING_BITPOS, rfl, rfl, one_bit _⟩
  · exact ⟨.EVACUATION_BITPOS, rfl, rfl, one_bit _⟩
  · exact ⟨.UPDATEREFS_BITPOS, rfl, rfl, one_bit _⟩
  · exact ⟨.TRAVERSAL_BITPOS, rfl, rfl, one_bit _⟩

/-- Witness of C1 at the flags MARKING and TRAVERSAL. -/
theorem gc_state_flags_single_bit_witness :
    GCState.MARKING.toNat &&& GCState.TRAVERSAL.toNat = 0 :=
  gc_state_flags_single_bit.2.2.2.2.2 .MARKING (by decide) .TRAVERSAL (by decide) (by decide)

/-- C2: STABLE is the value 0, and for every subset `S` of the five flags the
bitwise OR of the flags in `S` equals STABLE if and only if `S` is empty. -/
theorem gc_state_stable_iff_no_flag (S : List GCState)
    (hS : ∀ g ∈ S, g ∈ GCState.flags) :
    GCState.STABLE.toNat = 0 ∧ (gcStateOf S = GCState.STABLE.toNat ↔ S = []) := by
  refine ⟨rfl, ?_⟩
  cases S with
  | nil => simp [gcStateOf, GCState.toNat]
  | cons g S =>
    have hg : g ∈ GCState.flags := hS g (List.mem_cons_self g S)
    have hne : g.toNat &&& gcStateOf (g :: S) ≠ 0 :=
      (flag_and_gcStateOf (g :: S) hS g hg).mpr (List.mem_cons_self g S)
    constructor
    · intro h
      have h0 : gcStateOf (g :: S) = 0 := h
      rw [h0, Nat.and_zero] at hne
      exact absurd rfl hne
    · intro h
      exact absurd h (List.cons_ne_nil g S)

/-- Witness of C2 at the subset {MARKING, HAS_FORWARDED}: its state value is
not STABLE. -/
theorem gc_state_stable_iff_no_flag_witness :
    GCState.STABLE.toNat = 0
    ∧ (gcStateOf [.MARKING, .HAS_FORWARDED] = GCState.STABLE.toNat
        ↔ [GCState.MARKING, GCState.HAS_FORWARDED] = []) :=
  gc_state_stable_iff_no_flag [.MARKING, .HAS_FORWARDED] (by decide)

/-- C8: several GC-state bits can be set at once without losing information.
For every subset `S` of the five flags and every flag `f`, the bitwise AND of
`f` with the OR of the flags in `S` is non-zero if and only if `f` is in `S`;
hence two subsets with the same state value have the same members. -/
theorem gc_state_bits_independent (S T : List GCState)
    (hS : ∀ g ∈ S, g ∈ GCState.flags) (hT : ∀ g ∈ T, g ∈ GCState.flags) :
    (∀ f ∈ GCState.flags, (f.toNat &&& gcStateOf S ≠ 0 ↔ f ∈ S))
    ∧ (gcStateOf S = gcStateOf T → ∀ f : GCState, (f ∈ S ↔ f ∈ T)) := by
  refine ⟨fun f hf => flag_and_gcStateOf S hS f hf, ?_⟩
  intro h f
  constructor
  · intro hfS
    have hf := hS f hfS
    have := (flag_and_gcStateOf S hS f hf).mpr hfS
    rw [h] at this
    exact (flag_and_gcStateOf T hT f hf).mp this
  · intro hfT
    have hf := hT f hfT
    have := (flag_and_gcStateOf T hT f hf).mpr hfT
    rw [← h] at this
    exact (flag_and_gcStateOf S hS f hf).mp this

/-- Witness of C8 at two listings of the subset {EVACUATION, HAS_FORWARDED}:
EVACUATION is visible in the state value, and the two listings, having the
same state value, have the same members. -/
theorem gc_state_bits_independent_witness :
    (GCState.EVACUATION.toNat &&& gcStateOf [.EVACUATION, .HAS_FORWARDED] ≠ 0
        ↔ GCState.EVACUATION ∈ [GCState.EVACUATION, GCState.HAS_FORWARDED])
    ∧ (∀ f : GCState, (f ∈ [GCState.EVACUATION, GCState.HAS_FORWARDED]
        ↔ f ∈ [GCState.HAS_FORWARDED, GCState.EVACUATION, GCState.HAS_FORWARDED])) :=
  ⟨(gc_state_bits_independent [.EVACUATION, .HAS_FORWARDED]
      [.HAS_FORWARDED, .EVACUATION, .HAS_FORWARDED] (by decide) (by decide)).1
      .EVACUATION (by decide),
   (gc_state_bits_independent [.EVACUATION, .HAS_FORWARDED]
      [.HAS_FORWARDED, .EVACUATION, .HAS_FORWARDED] (by decide) (by decide)).2
      (by decide)⟩

/-! ## Degeneration points -/

theorem ShenandoahDegenPoint.toInt_injective (p q : ShenandoahDegenPoint)
    (h : p.toInt = q.toInt) : p = q := by
  revert h
  cases p <;> cases q <;> decide

theorem ShenandoahDegenPoint.toInt_values :
    ShenandoahDegenPoint.enumerators.map ShenandoahDegenPoint.toInt
      = [0, 1, 2, 3, 4, 5, 6] := by
  decide

/-- C3: `ShenandoahDegenPoint` has exactly six points below
`_DEGENERATED_LIMIT`, in the order unset, traversal, outside-cycle, mark, evac,
updaterefs, with codes 0..5, and `_DEGENERATED_LIMIT` is 6; the five points
other than unset are exactly the degeneration points Outside-Cycle, Mark, Evac,
Updaterefs, Traversal; and every integer in `[0, _DEGENERATED_LIMIT)`, as
passed to `entry_degenerated`, is the code of exactly one point. -/
theorem degen_point_enumeration :
    ShenandoahDegenPoint.points
        = [._degenerated_unset, ._degenerated_traversal, ._degenerated_outside_cycle,
           ._degenerated_mark, ._degenerated_evac, ._degenerated_updaterefs]
    ∧ ShenandoahDegenPoint.points.map ShenandoahDegenPoint.toInt = [0, 1, 2, 3, 4, 5]
    ∧ ShenandoahDegenPoint._DEGENERATED_LIMIT.toInt = 6
    ∧ (∀ p : ShenandoahDegenPoint,
        p ∈ specDegenerationPoints
          ↔ (p ∈ ShenandoahDegenPoint.points ∧ p ≠ ._degenerated_unset))
    ∧ specDegenerationPoints.Nodup
    ∧ (∀ i : Int, 0 ≤ i → i < ShenandoahDegenPoint._DEGENERATED_LIMIT.toInt →
        ∃! p : ShenandoahDegenPoint, p ∈ ShenandoahDegenPoint.points ∧ p.toInt = i) := by
  refine ⟨by decide, by decide, by decide, fun p => by cases p <;> decide, by decide, ?_⟩
  intro i h0 h6
  have hlim : ShenandoahDegenPoint._DEGENERATED_LIMIT.toInt = 6 := by decide
  rw [hlim] at h6
  have uniq : ∀ p : ShenandoahDegenPoint,
      (p ∈ ShenandoahDegenPoint.points ∧ p.toInt = i) →
      ∀ q : ShenandoahDegenPoint, (q ∈ ShenandoahDegenPoint.points ∧ q.toInt = i) → q = p :=
    fun p hp q hq => ShenandoahDegenPoint.toInt_injective q p (hq.2.trans hp.2.symm)
  have hi : i = 0 ∨ i = 1 ∨ i = 2 ∨ i = 3 ∨ i = 4 ∨ i = 5 := by omega
  rcases hi with rfl | rfl | rfl | rfl | rfl | rfl
  · exact ⟨._degenerated_unset, by decide, uniq _ (by decide)⟩
  · exact ⟨._degenerated_traversal, by decide, uniq _ (by decide)⟩
  · exact ⟨._degenerated_outside_cycle, by decide, uniq _ (by decide)⟩
  · exact ⟨._degenerated_mark, by decide, uniq _ (by decide)⟩
  · exact ⟨._degenerated_evac, by decide, uniq _ (by decide)⟩
  · exact ⟨._degenerated_updaterefs, by decide, uniq _ (by decide)⟩

/-- Witness of C3 at the integer 3, the code of the point mark. -/
theorem degen_point_enumeration_witness :
    ∃! p : ShenandoahDegenPoint, p ∈ ShenandoahDegenPoint.points ∧ p.toInt = 3 :=
  degen_point_enumeration.2.2.2.2.2 3 (by decide) (by decide)

/-- C9: `degen_point_to_string` maps unset to "<UNSET>", traversal to
"Traversal", outside-cycle to "Outside of Cycle", mark to "Mark", evac to
"Evacuation" and updaterefs to "Update Refs"; the six names are pairwise
distinct. -/
theorem degen_point_to_string_names :
    degen_point_to_string ShenandoahDegenPoint._degenerated_unset.toInt = .ok "<UNSET>"
    ∧ degen_point_to_string ShenandoahDegenPoint._degenerated_traversal.toInt
        = .ok "Traversal"
    ∧ degen_point_to_string ShenandoahDegenPoint._degenerated_outside_cycle.toInt
        = .ok "Outside of Cycle"
    ∧ degen_point_to_string ShenandoahDegenPoint._degenerated_mark.toInt = .ok "Mark"
    ∧ degen_point_to_string ShenandoahDegenPoint._degenerated_evac.toInt
        = .ok "Evacuation"
    ∧ degen_point_to_string ShenandoahDegenPoint._degenerated_updaterefs.toInt
        = .ok "Update Refs"
    ∧ List.Pairwise (fun a b : String => a ≠ b)
        ["<UNSET>", "Traversal", "Outside of Cycle", "Mark", "Evacuation", "Update Refs"]
    ∧ (ShenandoahDegenPoint.points.map
        (fun p => degen_point_to_string p.toInt)).Nodup := by
  refine ⟨rfl, rfl, rfl, rfl, rfl, rfl, by decide, by decide⟩

/-- The `switch` of `degen_point_to_string` with the case labels replaced by
their numeric codes. -/
theorem degen_point_to_string_codes (point : Int) :
    degen_point_to_string point =
      if point = 0 then .ok "<UNSET>"
      else if point = 1 then .ok "Traversal"
      else if point = 2 then .ok "Outside of Cycle"
      else if point = 3 then .ok "Mark"
      else if point = 4 then .ok "Evacuation"
      else if point = 5 then .ok "Update Refs"
      else .error "ERROR" := by
  have h0 : ShenandoahDegenPoint._degenerated_unset.toInt = 0 := by decide
  have h1 : ShenandoahDegenPoint._degenerated_traversal.toInt = 1 := by decide
  have h2 : ShenandoahDegenPoint._degenerated_outside_cycle.toInt = 2 := by decide
  have h3 : ShenandoahDegenPoint._degenerated_mark.toInt = 3 := by decide
  have h4 : ShenandoahDegenPoint._degenerated_evac.toInt = 4 := by decide
  have h5 : ShenandoahDegenPoint._degenerated_updaterefs.toInt = 5 := by decide
  unfold degen_point_to_string
  rw [h0, h1, h2, h3, h4, h5]

/-- C10: `degen_point_to_string` reaches its `ShouldNotReachHere` default
branch (the one whose `return` names "ERROR") if and only if its argument is
not one of the six degeneration points, that is for `_DEGENERATED_LIMIT` or
any value outside 0..5; for each of the six points the default branch is not
taken and the returned name is not "ERROR". -/
theorem degen_point_to_string_error_iff (point : Int) :
    (degen_point_to_string point = .error "ERROR"
        ↔ ¬ ∃ p ∈ ShenandoahDegenPoint.points, p.toInt = point)
    ∧ (degen_point_to_string point = .error "ERROR" ↔ (point < 0 ∨ 5 < point))
    ∧ ((∃ s, degen_point_to_string point = .error s)
        ↔ degen_point_to_string point = .error "ERROR")
    ∧ degen_point_to_string ShenandoahDegenPoint._DEGENERATED_LIMIT.toInt
        = .error "ERROR"
    ∧ (∀ p ∈ ShenandoahDegenPoint.points,
        ∃ s, degen_point_to_string p.toInt = .ok s ∧ s ≠ "ERROR") := by
  have range : degen_point_to_string point = .error "ERROR" ↔ (point < 0 ∨ 5 < point) := by
    rw [degen_point_to_string_codes]
    constructor
    · intro h
      split_ifs at h
      omega
    · intro h
      split_ifs <;> first | omega | rfl
  have member : (∃ p ∈ ShenandoahDegenPoint.points, p.toInt = point)
      ↔ (0 ≤ point ∧ point ≤ 5) := by
    constructor
    · rintro ⟨p, hp, rfl⟩
      revert hp
      cases p <;> decide
    · intro h
      have hi : point = 0 ∨ point = 1 ∨ point = 2 ∨ point = 3 ∨ point = 4 ∨ point = 5 := by
        omega
      rcases hi with rfl | rfl | rfl | rfl | rfl | rfl
      · exact ⟨._degenerated_unset, by decide, by decide⟩
      · exact ⟨._degenerated_traversal, by decide, by decide⟩
      · exact ⟨._degenerated_outside_cycle, by decide, by decide⟩
      · exact ⟨._degenerated_mark, by decide, by decide⟩
      · exact ⟨._degenerated_evac, by decide, by decide⟩
      · exact ⟨._degenerated_updaterefs, by decide, by decide⟩
  refine ⟨?_, range, ?_, rfl, ?_⟩
  · rw [range, member]
    omega
  · constructor
    · rintro ⟨s, hs⟩
      rw [degen_point_to_string_codes] at hs ⊢
      split_ifs at hs ⊢
      rfl
    · intro h
      exact ⟨"ERROR", h⟩
  · intro p hp
    revert hp
    cases p
    · intro _; exact ⟨"<UNSET>", rfl, by decide⟩
    · intro _; exact ⟨"Traversal", rfl, by decide⟩
    · intro _; exact ⟨"Outside of Cycle", rfl, by decide⟩
    · intro _; exact ⟨"Mark", rfl, by decide⟩
    · intro _; exact ⟨"Evacuation", rfl, by decide⟩
    · intro _; exact ⟨"Update Refs", rfl, by decide⟩
    · intro h; exact absurd h (by decide)

/-- Witness of C10 at the point evac: its name is returned by a `case`, and the
name is not "ERROR". -/
theorem degen_point_to_string_error_iff_witness :
    ∃ s, degen_point_to_string ShenandoahDegenPoint._degenerated_evac.toInt = .ok s
      ∧ s ≠ "ERROR" :=
  (degen_point_to_string_error_iff 0).2.2.2.2 ._degenerated_evac (by decide)

/-! ## Cancellation state -/

/-- C4: the cancellation state is one of exactly three pairwise distinct
values CANCELLABLE, CANCELLED and NOT_CANCELLED, with numeric values 0, 1, 2;
CANCELLABLE is the first, numerically 0. -/
theorem cancel_state_three_values :
    (∀ c : CancelState, c = .CANCELLABLE ∨ c = .CANCELLED ∨ c = .NOT_CANCELLED)
    ∧ CancelState.CANCELLABLE ≠ CancelState.CANCELLED
    ∧ CancelState.CANCELLABLE ≠ CancelState.NOT_CANCELLED
    ∧ CancelState.CANCELLED ≠ CancelState.NOT_CANCELLED
    ∧ CancelState.enumerators.head? = some CancelState.CANCELLABLE
    ∧ CancelState.CANCELLABLE.toNat = 0
    ∧ CancelState.enumerators.map CancelState.toNat = [0, 1, 2] := by
  refine ⟨fun c => by cases c <;> decide, by decide, by decide, by decide, rfl,
    by decide, by decide⟩

/-- C5: `cancel_gc` / `try_cancel_gc` changes the cancellation state to
CANCELLED only when the state is CANCELLABLE (and then it does, the request
being accepted); when the state is NOT_CANCELLED the call is a no-op that
leaves the state unchanged, and when it is already CANCELLED the state stays
CANCELLED. -/
theorem cancel_gc_only_from_cancellable (s : CancelState) :
    cancel_gc s = (try_cancel_gc s).2
    ∧ (cancel_gc s ≠ s → s = .CANCELLABLE ∧ cancel_gc s = .CANCELLED)
    ∧ (s = .CANCELLABLE → cancel_gc s = .CANCELLED ∧ (try_cancel_gc s).1 = true)
    ∧ (s = .NOT_CANCELLED → cancel_gc s = .NOT_CANCELLED ∧ (try_cancel_gc s).1 = false)
    ∧ (s = .CANCELLED → cancel_gc s = .CANCELLED ∧ (try_cancel_gc s).1 = false) := by
  cases s <;> decide

/-- Witness of C5 at the state NOT_CANCELLED: the request is not accepted and
the state is unchanged. -/
theorem cancel_gc_only_from_cancellable_witness :
    cancel_gc .NOT_CANCELLED = .NOT_CANCELLED
    ∧ (try_cancel_gc .NOT_CANCELLED).1 = false :=
  (cancel_gc_only_from_cancellable .NOT_CANCELLED).2.2.2.1 rfl

/-! ## Region iterator -/

theorem ShenandoahRegionIterator.nextCalls_exhausted {Region : Type}
    (heap : RegionTable Region) (k j : Nat) (hj : heap.num_regions ≤ j) :
    ShenandoahRegionIterator.nextCalls heap k { _index := j } = List.replicate k none := by
  induction k with
  | zero => rfl
  | succ k ih =>
    have hnot : ShenandoahRegionIterator.has_next heap { _index := j } = false := by
      simp only [ShenandoahRegionIterator.has_next, decide_eq_false_iff_not]
      omega
    simp only [ShenandoahRegionIterator.nextCalls, ShenandoahRegionIterator.next, hnot,
      Bool.false_eq_true, if_false, List.replicate_succ, ih]

theorem ShenandoahRegionIterator.nextCalls_from {Region : Type}
    (heap : RegionTable Region) (hn : heap.num_regions < 2 ^ SIZE_T_BITS) (k j : Nat) :
    ShenandoahRegionIterator.nextCalls heap k { _index := j }
      = (List.range k).map (fun i => heap._regions[j + i]?) := by
  induction k generalizing j with
  | zero => rfl
  | succ k ih =>
    rw [List.range_succ_eq_map, List.map_cons, List.map_map]
    by_cases hlt : j < heap.num_regions
    · have hyes : ShenandoahRegionIterator.has_next heap { _index := j } = true := by
        simp only [ShenandoahRegionIterator.has_next, decide_eq_true_eq]
        exact hlt
      have hmod : (j + 1) % 2 ^ SIZE_T_BITS = j + 1 := Nat.mod_eq_of_lt (by omega)
      simp only [ShenandoahRegionIterator.nextCalls, ShenandoahRegionIterator.next, hyes,
        if_true, hmod, ih (j + 1), Nat.add_zero]
      congr 1
      apply List.map_congr_left
      intro i _
      simp only [Function.comp, Nat.succ_eq_add_one]
      congr 1
      omega
    · have hge : heap.num_regions ≤ j := Nat.le_of_not_lt hlt
      rw [ShenandoahRegionIterator.nextCalls_exhausted heap (k + 1) j hge,
        List.replicate_succ]
      have hnone : ∀ i : Nat, heap._regions[j + i]? = none := by
        intro i
        apply List.getElem?_eq_none
        have : heap._regions.length = heap.num_regions := rfl
        omega
      rw [hnone 0]
      congr 1
      symm
      rw [List.eq_replicate_iff]
      refine ⟨by simp, ?_⟩
      intro b hb
      rw [List.mem_map] at hb
      obtain ⟨i, _, rfl⟩ := hb
      exact hnone _

/-- C7: starting from a reset iterator over a heap of `n` regions (`n` a
`size_t`), the results of `k` successive calls of `next` are, in order, the
table entries at the indices `0, 1, ..., k - 1`: the call number `i` (from
zero) returns the region with index `i` while `i < n`, each region once, and
returns NULL for every `i ≥ n`. -/
theorem region_iterator_next_enumerates {Region : Type} (heap : RegionTable Region)
    (it : ShenandoahRegionIterator) (k : Nat)
    (hn : heap.num_regions < 2 ^ SIZE_T_BITS) :
    ShenandoahRegionIterator.nextCalls heap k it.reset
        = (List.range k).map (fun i => heap._regions[i]?)
    ∧ (∀ i : Nat, i < k → ∀ hi : i < heap.num_regions,
        (ShenandoahRegionIterator.nextCalls heap k it.reset)[i]?
          = some (some (heap._regions.get ⟨i, hi⟩)))
    ∧ (∀ i : Nat, i < k → heap.num_regions ≤ i →
        (ShenandoahRegionIterator.nextCalls heap k it.reset)[i]? = some none) := by
  have key : ShenandoahRegionIterator.nextCalls heap k it.reset
      = (List.range k).map (fun i => heap._regions[i]?) := by
    have := ShenandoahRegionIterator.nextCalls_from heap hn k 0
    simpa [ShenandoahRegionIterator.reset] using this
  refine ⟨key, ?_, ?_⟩
  · intro i hik hi
    rw [key, List.getElem?_map, List.getElem?_range hik]
    have : heap._regions[i]? = some (heap._regions.get ⟨i, hi⟩) := by
      rw [List.getElem?_eq_getElem hi]
      rfl
    simp [this]
  · intro i hik hi
    rw [key, List.getElem?_map, List.getElem?_range hik]
    have : heap._regions[i]? = none := List.getElem?_eq_none hi
    simp [this]

/-- Witness of C7 on a heap of three regions and five calls of `next`. -/
theorem region_iterator_next_enumerates_witness :
    ShenandoahRegionIterator.nextCalls (RegionTable.mk ["r0", "r1", "r2"]) 5
        (ShenandoahRegionIterator.reset { _index := 4 })
      = [some "r0", some "r1", some "r2", none, none] :=
  (region_iterator_next_enumerates (RegionTable.mk ["r0", "r1", "r2"]) { _index := 4 } 5
    (by decide)).1

/-! ## Evacuation and the forwarding protocol -/

theorem EvacInv.init (src : oop) (alloc : Nat → Option oop) :
    EvacInv src alloc (EvacState.init src) where
  copied_own := by intro t c h; simp [EvacState.init] at h
  returned_fwd := by intro t r b h; simp [EvacState.init] at h
  winner_own := by intro t r h; simp [EvacState.init] at h
  winner_exists := by intro h; exact absurd rfl h
  winner_unique := by intro t u r r' h; simp [EvacState.init] at h
  oom_only := by intro t h; simp [EvacState.init] at h

/-- A thread-local step (one that keeps `fwd` and puts thread `t`, which has
not returned, into a state `s` that is not `returned`) preserves the
invariant. -/
theorem EvacInv.local_step {src : oop} {alloc : Nat → Option oop} {st : EvacState}
    (inv : EvacInv src alloc st) (t : Nat) (s : EvacThread)
    (hold : ∀ r b, st.threads t ≠ .returned r b)
    (hnew : ∀ r b, s ≠ .returned r b)
    (hcopied : ∀ c, s = .copied c → alloc t = some c)
    (hoom : s = .oom → alloc t = none)
    (st' : EvacState) (hfwd : st'.fwd = st.fwd)
    (hthr : st'.threads = Function.update st.threads t s) :
    EvacInv src alloc st' := by
  refine ⟨?_, ?_, ?_, ?_, ?_, ?_⟩
  · intro t' c h
    rw [hthr] at h
    by_cases ht : t' = t
    · subst ht
      rw [Function.update_same] at h
      exact hcopied c h
    · rw [Function.update_noteq ht] at h
      exact inv.copied_own t' c h
  · intro t' r b h
    rw [hthr] at h
    rw [hfwd]
    by_cases ht : t' = t
    · subst ht
      rw [Function.update_same] at h
      exact absurd h (hnew r b)
    · rw [Function.update_noteq ht] at h
      exact inv.returned_fwd t' r b h
  · intro t' r h
    rw [hthr] at h
    by_cases ht : t' = t
    · subst ht
      rw [Function.update_same] at h
      exact absurd h (hnew r false)
    · rw [Function.update_noteq ht] at h
      exact inv.winner_own t' r h
  · intro hf
    rw [hfwd] at hf
    obtain ⟨u, hu⟩ := inv.winner_exists hf
    have hut : u ≠ t := fun e => hold _ _ (e ▸ hu)
    refine ⟨u, ?_⟩
    rw [hthr, hfwd, Function.update_noteq hut]
    exact hu
  · intro t' u r r' h h'
    rw [hthr] at h h'
    have ht : t' ≠ t := by
      intro e
      subst e
      rw [Function.update_same] at h
      exact hnew r false h
    have hu : u ≠ t := by
      intro e
      subst e
      rw [Function.update_same] at h'
      exact hnew r' false h'
    rw [Function.update_noteq ht] at h
    rw [Function.update_noteq hu] at h'
    exact inv.winner_unique t' u r r' h h'
  · intro t' h
    rw [hthr] at h
    by_cases ht : t' = t
    · subst ht
      rw [Function.update_same] at h
      exact hoom h
    · rw [Function.update_noteq ht] at h
      exact inv.oom_only t' h

/-- The successful compare-and-exchange of thread `t` preserves the
invariant. -/
theorem EvacInv.install {src : oop} {alloc : Nat → Option oop} {st : EvacState}
    (hfresh : ∀ t c, alloc t = some c → c ≠ src)
    (inv : EvacInv src alloc st) (t : Nat) (c : oop)
    (hc : st.threads t = .copied c) (hf : st.fwd = src)
    (st' : EvacState) (hfwd : st'.fwd = c)
    (hthr : st'.threads = Function.update st.threads t (.returned c false)) :
    EvacInv src alloc st' := by
  have none_returned : ∀ u r b, st.threads u ≠ .returned r b :=
    fun u r b h => (inv.returned_fwd u r b h).2 hf
  have hown : alloc t = some c := inv.copied_own t c hc
  refine ⟨?_, ?_, ?_, ?_, ?_, ?_⟩
  · intro t' c' h
    rw [hthr] at h
    by_cases ht : t' = t
    · subst ht
      rw [Function.update_same] at h
      exact EvacThread.noConfusion h
    · rw [Function.update_noteq ht] at h
      exact inv.copied_own t' c' h
  · intro t' r b h
    rw [hthr] at h
    rw [hfwd]
    by_cases ht : t' = t
    · subst ht
      rw [Function.update_same] at h
      injection h with h1 h2
      exact ⟨h1.symm, hfresh _ c hown⟩
    · rw [Function.update_noteq ht] at h
      exact absurd h (none_returned t' r b)
  · intro t' r h
    rw [hthr] at h
    by_cases ht : t' = t
    · subst ht
      rw [Function.update_same] at h
      injection h with h1 h2
      rw [← h1]
      exact hown
    · rw [Function.update_noteq ht] at h
      exact absurd h (none_returned t' r false)
  · intro _
    refine ⟨t, ?_⟩
    rw [hthr, hfwd, Function.update_same]
  · intro t' u r r' h h'
    rw [hthr] at h h'
    by_cases ht : t' = t
    · by_cases hu : u = t
      · rw [ht, hu]
      · rw [Function.update_noteq hu] at h'
        exact absurd h' (none_returned u r' false)
    · rw [Function.update_noteq ht] at h
      exact absurd h (none_returned t' r false)
  · intro t' h
    rw [hthr] at h
    by_cases ht : t' = t
    · subst ht
      rw [Function.update_same] at h
      exact EvacThread.noConfusion h
    · rw [Function.update_noteq ht] at h
      exact inv.oom_only t' h

/-- The failed compare-and-exchange of thread `t` (roll back, return the
installed target) preserves the invariant. -/
theorem EvacInv.rollback {src : oop} {alloc : Nat → Option oop} {st : EvacState}
    (inv : EvacInv src alloc st) (t : Nat) (c : oop)
    (hc : st.threads t = .copied c) (hf : st.fwd ≠ src)
    (st' : EvacState) (hfwd : st'.fwd = st.fwd)
    (hthr : st'.threads = Function.update st.threads t (.returned st.fwd true)) :
    EvacInv src alloc st' := by
  refine ⟨?_, ?_, ?_, ?_, ?_, ?_⟩
  · intro t' c' h
    rw [hthr] at h
    by_cases ht : t' = t
    · subst ht
      rw [Function.update_same] at h
      exact EvacThread.noConfusion h
    · rw [Function.update_noteq ht] at h
      exact inv.copied_own t' c' h
  · intro t' r b h
    rw [hthr] at h
    rw [hfwd]
    by_cases ht : t' = t
    · subst ht
      rw [Function.update_same] at h
      injection h with h1 h2
      exact ⟨h1.symm, hf⟩
    · rw [Function.update_noteq ht] at h
      exact inv.returned_fwd t' r b h
  · intro t' r h
    rw [hthr] at h
    by_cases ht : t' = t
    · subst ht
      rw [Function.update_same] at h
      injection h with h1 h2
      exact Bool.noConfusion h2
    · rw [Function.update_noteq ht] at h
      exact inv.winner_own t' r h
  · intro _
    obtain ⟨u, hu⟩ := inv.winner_exists hf
    have hut : u ≠ t := by
      intro e
      rw [e, hc] at hu
      exact EvacThread.noConfusion hu
    refine ⟨u, ?_⟩
    rw [hthr, hfwd, Function.update_noteq hut]
    exact hu
  · intro t' u r r' h h'
    rw [hthr] at h h'
    have ht : t' ≠ t := by
      intro e
      subst e
      rw [Function.update_same] at h
      injection h with h1 h2
      exact Bool.noConfusion h2
    have hu : u ≠ t := by
      intro e
      subst e
      rw [Function.update_same] at h'
      injection h' with h1 h2
      exact Bool.noConfusion h2
    rw [Function.update_noteq ht] at h
    rw [Function.update_noteq hu] at h'
    exact inv.winner_unique t' u r r' h h'
  · intro t' h
    rw [hthr] at h
    by_cases ht : t' = t
    · subst ht
      rw [Function.update_same] at h
      exact EvacThread.noConfusion h
    · rw [Function.update_noteq ht] at h
      exact inv.oom_only t' h

/-- Every atomic step of `evacuate_object` preserves the invariant. -/
theorem EvacInv.step {src : oop} {alloc : Nat → Option oop} {st : EvacState}
    (hfresh : ∀ t c, alloc t = some c → c ≠ src)
    (inv : EvacInv src alloc st) (t : Nat) :
    EvacInv src alloc (evacuate_object_step src alloc st t) := by
  unfold evacuate_object_step
  cases hth : st.threads t with
  | entered =>
    have hold : ∀ r b, st.threads t ≠ .returned r b := by
      intro r b h
      rw [hth] at h
      exact EvacThread.noConfusion h
    cases hal : alloc t with
    | some copy =>
      exact inv.local_step t (.copied copy) hold (fun r b h => EvacThread.noConfusion h)
        (fun c h => by injection h with h1; rw [← h1]; exact hal)
        (fun h => EvacThread.noConfusion h) _ rfl rfl
    | none =>
      exact inv.local_step t .oom hold (fun r b h => EvacThread.noConfusion h)
        (fun c h => EvacThread.noConfusion h) (fun _ => hal) _ rfl rfl
  | copied copy =>
    by_cases hf : st.fwd = src
    · have h1 : (try_update_forwardee src copy st.fwd) = (src, copy) := by
        simp [try_update_forwardee, hf]
      simp only [h1, if_true]
      exact EvacInv.install hfresh inv t copy hth hf _ rfl rfl
    · have h1 : (try_update_forwardee src copy st.fwd) = (st.fwd, st.fwd) := by
        simp [try_update_forwardee, hf]
      simp only [h1, hf, if_false]
      exact EvacInv.rollback inv t copy hth hf _ rfl rfl
  | returned r b => exact inv
  | oom => exact inv

/-- The invariant holds after every schedule. -/
theorem EvacInv.run {src : oop} {alloc : Nat → Option oop}
    (hfresh : ∀ t c, alloc t = some c → c ≠ src) (schedule : List Nat) :
    ∀ st : EvacState, EvacInv src alloc st →
      EvacInv src alloc (evacuate_object_run src alloc st schedule) := by
  induction schedule with
  | nil => intro st inv; exact inv
  | cons t schedule ih =>
    intro st inv
    exact ih _ (EvacInv.step hfresh inv t)

/-- A step of thread `t` does not touch the progress of another thread. -/
theorem evacuate_object_step_other (src : oop) (alloc : Nat → Option oop)
    (st : EvacState) (t u : Nat) (h : u ≠ t) :
    (evacuate_object_step src alloc st t).threads u = st.threads u := by
  unfold evacuate_object_step
  cases st.threads t with
  | entered =>
    cases alloc t with
    | some copy => exact Function.update_noteq h _ _
    | none => exact Function.update_noteq h _ _
  | copied copy =>
    dsimp only
    split_ifs
    · exact Function.update_noteq h _ _
    · exact Function.update_noteq h _ _
  | returned r b => rfl
  | oom => rfl

/-- A step of thread `t` advances it, unless it has finished. -/
theorem evacuate_object_step_pc (src : oop) (alloc : Nat → Option oop)
    (st : EvacState) (t : Nat) :
    min 2 ((st.threads t).pc + 1) ≤ ((evacuate_object_step src alloc st t).threads t).pc := by
  unfold evacuate_object_step
  cases hth : st.threads t with
  | entered =>
    cases alloc t with
    | some copy =>
      dsimp only
      rw [Function.update_same]
      simp [EvacThread.pc]
    | none =>
      dsimp only
      rw [Function.update_same]
      simp [EvacThread.pc]
  | copied copy =>
    dsimp only
    split_ifs
    · dsimp only
      rw [Function.update_same]
      simp [EvacThread.pc]
    · dsimp only
      rw [Function.update_same]
      simp [EvacThread.pc]
  | returned r b =>
    dsimp only
    rw [hth]
    simp [EvacThread.pc]
  | oom =>
    dsimp only
    rw [hth]
    simp [EvacThread.pc]

/-- After a schedule, thread `t` has completed at least as many steps as it
was scheduled for, up to the two steps of the call. -/
theorem evacuate_object_run_pc (src : oop) (alloc : Nat → Option oop) (t : Nat)
    (schedule : List Nat) :
    ∀ st : EvacState, min 2 ((st.threads t).pc + schedule.count t)
      ≤ ((evacuate_object_run src alloc st schedule).threads t).pc := by
  induction schedule with
  | nil =>
    intro st
    simp only [evacuate_object_run, List.count_nil, Nat.add_zero]
    exact Nat.min_le_right _ _
  | cons u schedule ih =>
    intro st
    have ih' := ih (evacuate_object_step src alloc st u)
    simp only [evacuate_object_run]
    by_cases hu : u = t
    · subst hu
      have hpc := evacuate_object_step_pc src alloc st u
      rw [List.count_cons_self]
      omega
    · have hother := evacuate_object_step_other src alloc st u t (Ne.symm hu)
      rw [List.count_cons_of_ne (Ne.symm hu)]
      rw [hother] at ih'
      exact ih'

/-- C6: for every object `src` evacuated by racing threads, under every
interleaving of their atomic steps, `evacuate_object` returns the same single
surviving copy to every caller: all returned addresses equal the installed
forwarding target, which is not `src`; the one thread whose install succeeded
returned its own copy; every other returned thread rolled back and got the
copy installed by that competing thread; and a thread with a destination that
has been scheduled for its two steps has returned. -/
theorem evacuate_object_single_copy (src : oop) (alloc : Nat → Option oop)
    (hfresh : ∀ t c, alloc t = some c → c ≠ src) (schedule : List Nat) :
    (∀ t r b,
        (evacuate_object_run src alloc (EvacState.init src) schedule).threads t
          = .returned r b →
        r = (evacuate_object_run src alloc (EvacState.init src) schedule).fwd ∧ r ≠ src)
    ∧ (∀ t u r r' b b',
        (evacuate_object_run src alloc (EvacState.init src) schedule).threads t
          = .returned r b →
        (evacuate_object_run src alloc (EvacState.init src) schedule).threads u
          = .returned r' b' →
        r = r')
    ∧ (∀ t r,
        (evacuate_object_run src alloc (EvacState.init src) schedule).threads t
          = .returned r false →
        alloc t = some r)
    ∧ (∀ t u r r',
        (evacuate_object_run src alloc (EvacState.init src) schedule).threads t
          = .returned r false →
        (evacuate_object_run src alloc (EvacState.init src) schedule).threads u
          = .returned r' false →
        t = u)
    ∧ (∀ t r,
        (evacuate_object_run src alloc (EvacState.init src) schedule).threads t
          = .returned r true →
        ∃ u, u ≠ t ∧ alloc u = some r ∧
          (evacuate_object_run src alloc (EvacState.init src) schedule).threads u
            = .returned r false)
    ∧ (∀ t c, alloc t = some c → 2 ≤ schedule.count t →
        ∃ r b, (evacuate_object_run src alloc (EvacState.init src) schedule).threads t
          = .returned r b) := by
  have inv := EvacInv.run hfresh schedule (EvacState.init src) (EvacInv.init src alloc)
  refine ⟨?_, ?_, inv.winner_own, inv.winner_unique, ?_, ?_⟩
  · intro t r b h
    have := inv.returned_fwd t r b h
    exact ⟨this.1, this.1 ▸ this.2⟩
  · intro t u r r' b b' h h'
    rw [(inv.returned_fwd t r b h).1, (inv.returned_fwd u r' b' h').1]
  · intro t r h
    have hr := inv.returned_fwd t r true h
    obtain ⟨u, hu⟩ := inv.winner_exists hr.2
    rw [← hr.1] at hu
    refine ⟨u, ?_, inv.winner_own u r hu, hu⟩
    intro e
    rw [e, h] at hu
    injection hu with h1 h2
    exact Bool.noConfusion h2
  · intro t c hc hcount
    have hpc := evacuate_object_run_pc src alloc t schedule (EvacState.init src)
    have h0 : ((EvacState.init src).threads t).pc = 0 := rfl
    rw [h0] at hpc
    have h2 : 2 ≤ ((evacuate_object_run src alloc (EvacState.init src) schedule).threads t).pc := by
      omega
    cases hth : (evacuate_object_run src alloc (EvacState.init src) schedule).threads t with
    | entered => rw [hth] at h2; simp [EvacThread.pc] at h2
    | copied copy => rw [hth] at h2; simp [EvacThread.pc] at h2
    | returned r b => exact ⟨r, b, rfl⟩
    | oom =>
      have := inv.oom_only t hth
      rw [hc] at this
      exact Option.noConfusion this

/-- Witness of C6: two threads race on the object at address 7 with
destinations 100 and 101, thread 1 installing first; both return 101, thread 0
having rolled back. -/
theorem evacuate_object_single_copy_witness :
    (evacuate_object_run 7 (fun t => some (100 + t)) (EvacState.init 7) [0, 1, 1, 0]).threads 0
        = .returned 101 true
    ∧ (evacuate_object_run 7 (fun t => some (100 + t)) (EvacState.init 7) [0, 1, 1, 0]).threads 1
        = .returned 101 false
    ∧ (101 : oop)
        = (evacuate_object_run 7 (fun t => some (100 + t)) (EvacState.init 7) [0, 1, 1, 0]).fwd
    ∧ (101 : oop) ≠ 7 :=
  ⟨by decide, by decide,
    (evacuate_object_single_copy 7 (fun t => some (100 + t))
      (fun t c h => by
        have h1 : 100 + t = c := Option.some.inj h
        intro h7
        have h8 : @Eq Nat c 7 := h7
        omega)
      [0, 1, 1, 0]).1 0 101 true (by decide)⟩

/-! ## Setting and clearing GC-state bits -/

set_option maxRecDepth 100000 in
/-- The frame property on all 8-bit states, by enumeration. -/
theorem set_gc_state_mask_frame_small :
    ∀ s : Fin (2 ^ 8), ∀ f ∈ GCState.flags, ∀ g ∈ GCState.flags, f ≠ g →
      ((s.val ||| f.toNat) &&& g.toNat = s.val &&& g.toNat
      ∧ (s.val &&& gcStateNot f.toNat) &&& g.toNat = s.val &&& g.toNat
      ∧ set_gc_state_mask s.val f.toNat true &&& g.toNat = s.val &&& g.toNat
      ∧ set_gc_state_mask s.val f.toNat false &&& g.toNat = s.val &&& g.toNat) := by
  decide

set_option maxRecDepth 100000 in
/-- Setting then clearing a flag that was clear, on all 8-bit states, by
enumeration. -/
theorem set_gc_state_mask_undo_small :
    ∀ s : Fin (2 ^ 8), ∀ f ∈ GCState.flags, s.val &&& f.toNat = 0 →
      ((s.val ||| f.toNat) &&& gcStateNot f.toNat = s.val
      ∧ set_gc_state_mask (set_gc_state_mask s.val f.toNat true) f.toNat false = s.val) := by
  decide

/-- C11: setting or clearing one GC-state flag leaves every other flag
unchanged.  For every 8-bit state `s` and every two distinct flags `f` and `g`
among the five, `(s OR f) AND g` equals `s AND g` and `(s AND NOT f) AND g`
equals `s AND g`, also when the set and the clear go through
`set_gc_state_mask`; and setting `f` then clearing `f` on a state where `f`
was clear gives back `s`. -/
theorem set_gc_state_mask_frame (s : Nat) (hs : s < 2 ^ GC_STATE_BITS)
    (f g : GCState) (hf : f ∈ GCState.flags) (hg : g ∈ GCState.flags) (hfg : f ≠ g) :
    (s ||| f.toNat) &&& g.toNat = s &&& g.toNat
    ∧ (s &&& gcStateNot f.toNat) &&& g.toNat = s &&& g.toNat
    ∧ set_gc_state_mask s f.toNat true &&& g.toNat = s &&& g.toNat
    ∧ set_gc_state_mask s f.toNat false &&& g.toNat = s &&& g.toNat
    ∧ (s &&& f.toNat = 0 →
        (s ||| f.toNat) &&& gcStateNot f.toNat = s
        ∧ set_gc_state_mask (set_gc_state_mask s f.toNat true) f.toNat false = s) := by
  have frame := set_gc_state_mask_frame_small ⟨s, hs⟩ f hf g hg hfg
  exact ⟨frame.1, frame.2.1, frame.2.2.1, frame.2.2.2,
    fun hclear => set_gc_state_mask_undo_small ⟨s, hs⟩ f hf hclear⟩

/-- Witness of C11 at the state with HAS_FORWARDED and UPDATEREFS set (9),
setting and clearing EVACUATION while observing UPDATEREFS. -/
theorem set_gc_state_mask_frame_witness :
    set_gc_state_mask 9 GCState.EVACUATION.toNat true &&& GCState.UPDATEREFS.toNat
        = 9 &&& GCState.UPDATEREFS.toNat
    ∧ set_gc_state_mask 9 GCState.EVACUATION.toNat false &&& GCState.UPDATEREFS.toNat
        = 9 &&& GCState.UPDATEREFS.toNat
    ∧ set_gc_state_mask (set_gc_state_mask 9 GCState.EVACUATION.toNat true)
        GCState.EVACUATION.toNat false = 9 :=
  ⟨(set_gc_state_mask_frame 9 (by decide) .EVACUATION .UPDATEREFS
      (by decide) (by decide) (by decide)).2.2.1,
   (set_gc_state_mask_frame 9 (by decide) .EVACUATION .UPDATEREFS
      (by decide) (by decide) (by decide)).2.2.2.1,
   ((set_gc_state_mask_frame 9 (by decide) .EVACUATION .UPDATEREFS
      (by decide) (by decide) (by decide)).2.2.2.2 (by decide)).2⟩

end ShenandoahHeap
